import Mathlib

/-!
Verification of the stk cage topology placement and bonding engine.

The definitions below embed, in order:

* the greedy atom-to-position matcher
  `CageTopology.pair_bonders_with_positions` and the greedy atom-to-atom
  matcher `CageTopology.join_mols`
  (`src/stk/molecular/topologies/cage/base.py`);
* the plane-normal computations `Vertex.edge_plane_normal`
  (same file) and `BuildingBlock.get_bonder_plane_normal`
  (`src/src/stk/molecular/molecules/building_block.py`);
* `Bond.clone` (`src/src/stk/molecular/bond.py`);
* the vertex/edge constructors `Vertex.vertex_init` and `Edge.__init__`
  (`src/stk/molecular/topologies/cage/base.py`);
* rotation about an axis and vertex scaling, which are declared but not
  implemented in the queried sources and are therefore modelled from the
  specification.

Machine floats are embedded as rational numbers where only ordering and
exact arithmetic matter (the matchers) and as real numbers where
trigonometry is involved (the plane normals, rotations).
-/

namespace Stk

/-- Squared Euclidean distance between two 3D points with rational
coordinates.  The source computes the Euclidean distance
(`scipy.spatial.distance.euclidean`, `macro_mol.atom_distance`); ordering
candidate pairs by Euclidean distance is the same as ordering them by
squared Euclidean distance, and two Euclidean distances are equal exactly
when their squares are, because the square root is strictly monotone on
nonnegative reals.  The greedy matchers only ever compare distances, so
they are insensitive to this change of representation. -/
def dist2 (p q : ℚ × ℚ × ℚ) : ℚ :=
  (p.1 - q.1) ^ 2 + (p.2.1 - q.2.1) ^ 2 + (p.2.2 - q.2.2) ^ 2

/-- Multiplication of a 3D point by the global scale factor
(`position.coord * scale` in the source). -/
def scaleVec (s : ℚ) (p : ℚ × ℚ × ℚ) : ℚ × ℚ × ℚ :=
  (s * p.1, s * p.2.1, s * p.2.2)

/-- Input state of `CageTopology.pair_bonders_with_positions`:
the `bonder_ids` of the vertex, the coordinates of atoms in the
macromolecule (`macro_mol.atom_coords`), the connected positions of the
vertex (each a distinct Python object, represented by an identity
number, with its coordinate), and the global scale factor. -/
structure PBInput where
  bonderIds : List ℕ
  atomCoords : ℕ → ℚ × ℚ × ℚ
  connected : List (ℕ × (ℚ × ℚ × ℚ))
  scale : ℚ

/-- The candidate list built by the first loop of
`pair_bonders_with_positions`: for each bonder id, for each connected
position, the entry `(distance, bonder_id, position)`. -/
def pbCandidates (inp : PBInput) : List (ℚ × ℕ × ℕ) :=
  inp.bonderIds.flatMap (fun b =>
    inp.connected.map (fun pos =>
      (dist2 (inp.atomCoords b) (scaleVec inp.scale pos.2), b, pos.1)))

/-- `distances.sort(key=lambda x: x[0])`: comparison by the first
component only.  Python's sort is stable, as is `List.mergeSort`. -/
def keyLE (a b : ℚ × ℕ × ℕ) : Bool := decide (a.1 ≤ b.1)

/-- The second loop of `pair_bonders_with_positions`: walk the sorted
candidates, skip an entry whenever its bonder id is in `paired_ids` or
its position is in `paired_pos`, otherwise record the pair and add both
to the consumed sets (modelled as lists used only through membership). -/
def pairAux : List (ℚ × ℕ × ℕ) → List ℕ → List ℕ → List (ℕ × ℕ)
  | [], _, _ => []
  | (_, b, p) :: rest, usedB, usedP =>
    if b ∈ usedB ∨ p ∈ usedP then pairAux rest usedB usedP
    else (b, p) :: pairAux rest (b :: usedB) (p :: usedP)

/-- `CageTopology.pair_bonders_with_positions`: build the candidate
list, sort it stably by distance, and consume it greedily.  The result
is the `atom_position_pairs` list stored on the vertex. -/
def pairBondersWithPositions (inp : PBInput) : List (ℕ × ℕ) :=
  pairAux ((pbCandidates inp).mergeSort keyLE) [] []

/-- One entry of `positions_A` as seen by `join_mols`: the
`atom_position_pairs` attribute, a list of
(bonder atom id, paired position id) pairs. -/
structure JoinPosition where
  atomPositionPairs : List (ℕ × ℕ)

/-- Input state of `CageTopology.join_mols`: the `positions_A` list,
the `bonder_ids` attribute of every position (indexed by position
identity), and the atom coordinates of the macromolecule. -/
structure JoinInput where
  positions : List JoinPosition
  bonderIdsOf : ℕ → List ℕ
  atomCoords : ℕ → ℚ × ℚ × ℚ

/-- The `position.distances` list built by the first loop of
`join_mols`: for every `(atom_id, vertex)` in `atom_position_pairs`,
for every `atom2_id` in `vertex.bonder_ids`, the triple
`(distance, atom_id, atom2_id)`. -/
def positionDistances (inp : JoinInput) (pos : JoinPosition) :
    List (ℚ × ℕ × ℕ) :=
  pos.atomPositionPairs.flatMap (fun ap =>
    (inp.bonderIdsOf ap.2).map (fun a2 =>
      (dist2 (inp.atomCoords ap.1) (inp.atomCoords a2), ap.1, a2)))

/-- `sorted(position.distances)`: Python compares the
`(distance, atom_id, atom2_id)` tuples lexicographically. -/
def tripLE (a b : ℚ × ℕ × ℕ) : Bool :=
  decide (a.1 < b.1 ∨ (a.1 = b.1 ∧
    (a.2.1 < b.2.1 ∨ (a.2.1 = b.2.1 ∧ a.2.2 ≤ b.2.2))))

/-- The mutable state threaded through the second loop of `join_mols`:
the bonds added to the editable molecule so far, the
`macro_mol.bonds_made` counter, the `paired` set (a list used only
through membership), and the warnings emitted so far.  The body of
`join_mols` contains no warning or logging statement, so the last field
records that nothing is ever reported. -/
structure JoinState where
  bonds : List (ℕ × ℕ)
  bondsMade : ℕ
  paired : List ℕ
  warnings : List String

/-- The body of the second loop of `join_mols`: skip a candidate if
either atom is already in `paired`, otherwise add the bond, increment
`bonds_made` and mark both atoms as consumed. -/
def joinStep (st : JoinState) (c : ℚ × ℕ × ℕ) : JoinState :=
  if c.2.1 ∈ st.paired ∨ c.2.2 ∈ st.paired then st
  else
    { bonds := st.bonds ++ [(c.2.1, c.2.2)]
      bondsMade := st.bondsMade + 1
      paired := c.2.1 :: c.2.2 :: st.paired
      warnings := st.warnings }

/-- `CageTopology.join_mols`: starting from a fresh editable molecule
and `bonds_made = 0`, walk every position's sorted distance list with
one `paired` set shared across all positions. -/
def joinMols (inp : JoinInput) : JoinState :=
  inp.positions.foldl
    (fun st pos =>
      ((positionDistances inp pos).mergeSort tripLE).foldl joinStep st)
    { bonds := [], bondsMade := 0, paired := [], warnings := [] }

/-- Two bonds share no endpoint atom. -/
def endsDisjoint (b1 b2 : ℕ × ℕ) : Prop :=
  b1.1 ≠ b2.1 ∧ b1.1 ≠ b2.2 ∧ b1.2 ≠ b2.1 ∧ b1.2 ≠ b2.2

/-- Loop invariant of `join_mols`: the recorded bonds pairwise share no
endpoint, every endpoint is in the `paired` set and, conversely, the
`paired` set holds exactly the endpoints of recorded bonds; the bond
counter equals the number of recorded bonds; nothing has been warned. -/
def JoinInv (st : JoinState) : Prop :=
  st.bonds.Pairwise endsDisjoint ∧
  (∀ x, x ∈ st.paired ↔ ∃ b ∈ st.bonds, x = b.1 ∨ x = b.2) ∧
  st.bondsMade = st.bonds.length ∧
  st.warnings = []

theorem joinStep_inv {st : JoinState} (c : ℚ × ℕ × ℕ)
    (h : JoinInv st) : JoinInv (joinStep st c) := by
  obtain ⟨hpw, hpair, hcount, hwarn⟩ := h
  unfold joinStep
  split
  · exact ⟨hpw, hpair, hcount, hwarn⟩
  · next hskip =>
    have hb1 : c.2.1 ∉ st.paired := fun hm => hskip (Or.inl hm)
    have hb2 : c.2.2 ∉ st.paired := fun hm => hskip (Or.inr hm)
    refine ⟨?_, ?_, ?_, hwarn⟩
    · rw [List.pairwise_append]
      refine ⟨hpw, List.pairwise_singleton _ _, ?_⟩
      intro b hb b' hb'
      rw [List.mem_singleton] at hb'
      subst hb'
      have h1 : b.1 ∈ st.paired := (hpair b.1).2 ⟨b, hb, Or.inl rfl⟩
      have h2 : b.2 ∈ st.paired := (hpair b.2).2 ⟨b, hb, Or.inr rfl⟩
      exact ⟨fun heq => hb1 (heq ▸ h1), fun heq => hb2 (heq ▸ h1),
        fun heq => hb1 (heq ▸ h2), fun heq => hb2 (heq ▸ h2)⟩
    · intro x
      constructor
      · intro hx
        rcases List.mem_cons.1 hx with rfl | hx'
        · exact ⟨(c.2.1, c.2.2),
            List.mem_append_right _ (List.mem_singleton_self _),
            Or.inl rfl⟩
        · rcases List.mem_cons.1 hx' with rfl | hx''
          · exact ⟨(c.2.1, c.2.2),
              List.mem_append_right _ (List.mem_singleton_self _),
              Or.inr rfl⟩
          · obtain ⟨b, hb, hxb⟩ := (hpair x).1 hx''
            exact ⟨b, List.mem_append_left _ hb, hxb⟩
      · rintro ⟨b, hb, hxb⟩
        rcases List.mem_append.1 hb with hb' | hb'
        · exact List.mem_cons_of_mem _
            (List.mem_cons_of_mem _ ((hpair x).2 ⟨b, hb', hxb⟩))
        · rw [List.mem_singleton] at hb'
          subst hb'
          rcases hxb with rfl | rfl
          · exact List.mem_cons_self _ _
          · exact List.mem_cons_of_mem _ (List.mem_cons_self _ _)
    · simp [hcount]

theorem foldl_joinStep_inv (l : List (ℚ × ℕ × ℕ)) {st : JoinState}
    (h : JoinInv st) : JoinInv (l.foldl joinStep st) := by
  induction l generalizing st with
  | nil => exact h
  | cons c rest ih => exact ih (joinStep_inv c h)

theorem foldl_positions_inv (inp : JoinInput) (ps : List JoinPosition)
    {st : JoinState} (h : JoinInv st) :
    JoinInv (ps.foldl
      (fun st pos =>
        ((positionDistances inp pos).mergeSort tripLE).foldl joinStep st)
      st) := by
  induction ps generalizing st with
  | nil => exact h
  | cons pos rest ih => exact ih (foldl_joinStep_inv _ h)

theorem joinMols_inv (inp : JoinInput) : JoinInv (joinMols inp) := by
  refine foldl_positions_inv inp inp.positions
    ⟨List.Pairwise.nil, ?_, rfl, rfl⟩
  intro x
  simp

/-- The greedy consumption loop of `pair_bonders_with_positions` never
pairs an id or a position that is already consumed, and its output has
pairwise distinct bonder ids and pairwise distinct positions. -/
theorem pairAux_spec :
    ∀ (l : List (ℚ × ℕ × ℕ)) (usedB usedP : List ℕ),
      (∀ x ∈ pairAux l usedB usedP, x.1 ∉ usedB ∧ x.2 ∉ usedP) ∧
      ((pairAux l usedB usedP).map Prod.fst).Nodup ∧
      ((pairAux l usedB usedP).map Prod.snd).Nodup := by
  intro l
  induction l with
  | nil => intro usedB usedP; simp [pairAux]
  | cons c rest ih =>
    intro usedB usedP
    obtain ⟨d, b, p⟩ := c
    simp only [pairAux]
    by_cases hused : b ∈ usedB ∨ p ∈ usedP
    · rw [if_pos hused]
      exact ih usedB usedP
    · rw [if_neg hused]
      have hb : b ∉ usedB := fun hm => hused (Or.inl hm)
      have hp : p ∉ usedP := fun hm => hused (Or.inr hm)
      have ihr := ih (b :: usedB) (p :: usedP)
      refine ⟨?_, ?_, ?_⟩
      · intro x hx
        rcases List.mem_cons.1 hx with rfl | hx'
        · exact ⟨hb, hp⟩
        · have := ihr.1 x hx'
          exact ⟨fun hm => this.1 (List.mem_cons_of_mem _ hm),
            fun hm => this.2 (List.mem_cons_of_mem _ hm)⟩
      · rw [List.map_cons, List.nodup_cons]
        refine ⟨?_, ihr.2.1⟩
        intro hmem
        obtain ⟨x, hx, hfx⟩ := List.mem_map.1 hmem
        exact absurd (by rw [hfx]; exact List.mem_cons_self _ _)
          (ihr.1 x hx).1
      · rw [List.map_cons, List.nodup_cons]
        refine ⟨?_, ihr.2.2⟩
        intro hmem
        obtain ⟨x, hx, hfx⟩ := List.mem_map.1 hmem
        exact absurd (by rw [hfx]; exact List.mem_cons_self _ _)
          (ihr.1 x hx).2

/-- C1.  Pairing bijectivity: in the output of
`pair_bonders_with_positions` no bonder-atom id and no position occurs
in more than one pair, and in the output of `join_mols` no two bonds
share an endpoint atom, so every bonder atom is paired with at most one
position and bonded to at most one other bonder atom. -/
theorem pairing_bijectivity (inp : PBInput) (jinp : JoinInput) :
    (((pairBondersWithPositions inp).map Prod.fst).Nodup ∧
     ((pairBondersWithPositions inp).map Prod.snd).Nodup) ∧
    (joinMols jinp).bonds.Pairwise endsDisjoint := by
  refine ⟨⟨?_, ?_⟩, (joinMols_inv jinp).1⟩
  · exact (pairAux_spec _ [] []).2.1
  · exact (pairAux_spec _ [] []).2.2

/-- Refinement target, following the spec's words for the
atom-to-position rule: walk the candidates in the given order and
accept a candidate exactly when neither its atom nor its position
occurs in a previously accepted pair. -/
def specAccept : List (ℚ × ℕ × ℕ) → List (ℕ × ℕ) → List (ℕ × ℕ)
  | [], acc => acc
  | (_, b, p) :: rest, acc =>
    if (∃ q ∈ acc, q.1 = b) ∨ (∃ q ∈ acc, q.2 = p) then
      specAccept rest acc
    else specAccept rest (acc ++ [(b, p)])

/-- Refinement target, following the spec's words for the atom-to-atom
rule: walk the candidates in the given order and accept a candidate
exactly when neither of its two atoms occurs in a previously accepted
bond. -/
def specJoin : List (ℚ × ℕ × ℕ) → List (ℕ × ℕ) → List (ℕ × ℕ)
  | [], acc => acc
  | (_, a1, a2) :: rest, acc =>
    if (∃ q ∈ acc, a1 = q.1 ∨ a1 = q.2) ∨
        (∃ q ∈ acc, a2 = q.1 ∨ a2 = q.2) then
      specJoin rest acc
    else specJoin rest (acc ++ [(a1, a2)])

theorem specAccept_eq_pairAux :
    ∀ (l : List (ℚ × ℕ × ℕ)) (usedB usedP : List ℕ)
      (acc : List (ℕ × ℕ)),
      (∀ a, a ∈ usedB ↔ ∃ q ∈ acc, q.1 = a) →
      (∀ p, p ∈ usedP ↔ ∃ q ∈ acc, q.2 = p) →
      specAccept l acc = acc ++ pairAux l usedB usedP := by
  intro l
  induction l with
  | nil => intro usedB usedP acc _ _; simp [specAccept, pairAux]
  | cons c rest ih =>
    intro usedB usedP acc hB hP
    obtain ⟨d, b, p⟩ := c
    have hcond : ((∃ q ∈ acc, q.1 = b) ∨ (∃ q ∈ acc, q.2 = p)) ↔
        (b ∈ usedB ∨ p ∈ usedP) := by
      constructor
      · rintro (h | h)
        · exact Or.inl ((hB b).2 h)
        · exact Or.inr ((hP p).2 h)
      · rintro (h | h)
        · exact Or.inl ((hB b).1 h)
        · exact Or.inr ((hP p).1 h)
    simp only [specAccept, pairAux]
    by_cases hused : b ∈ usedB ∨ p ∈ usedP
    · rw [if_pos (hcond.2 hused), if_pos hused]
      exact ih usedB usedP acc hB hP
    · rw [if_neg (fun h => hused (hcond.1 h)), if_neg hused]
      have hB2 : ∀ a, a ∈ b :: usedB ↔ ∃ q ∈ acc ++ [(b, p)], q.1 = a := by
        intro a
        simp only [List.mem_cons, List.mem_append, List.mem_singleton,
          List.not_mem_nil, or_false]
        constructor
        · rintro (h | h)
          · exact ⟨(b, p), Or.inr rfl, h.symm⟩
          · obtain ⟨q, hq, hqa⟩ := (hB a).1 h
            exact ⟨q, Or.inl hq, hqa⟩
        · rintro ⟨q, hq | rfl, hqa⟩
          · exact Or.inr ((hB a).2 ⟨q, hq, hqa⟩)
          · exact Or.inl hqa.symm
      have hP2 : ∀ x, x ∈ p :: usedP ↔ ∃ q ∈ acc ++ [(b, p)], q.2 = x := by
        intro x
        simp only [List.mem_cons, List.mem_append, List.mem_singleton,
          List.not_mem_nil, or_false]
        constructor
        · rintro (h | h)
          · exact ⟨(b, p), Or.inr rfl, h.symm⟩
          · obtain ⟨q, hq, hqx⟩ := (hP x).1 h
            exact ⟨q, Or.inl hq, hqx⟩
        · rintro ⟨q, hq | rfl, hqx⟩
          · exact Or.inr ((hP x).2 ⟨q, hq, hqx⟩)
          · exact Or.inl hqx.symm
      rw [ih (b :: usedB) (p :: usedP) (acc ++ [(b, p)]) hB2 hP2]
      simp

theorem foldl_joinStep_bonds (l : List (ℚ × ℕ × ℕ)) (st : JoinState)
    (h : JoinInv st) :
    (l.foldl joinStep st).bonds = specJoin l st.bonds := by
  induction l generalizing st with
  | nil => simp [specJoin]
  | cons c rest ih =>
    obtain ⟨d, a1, a2⟩ := c
    simp only [List.foldl_cons, specJoin]
    by_cases hmem : a1 ∈ st.paired ∨ a2 ∈ st.paired
    · have hcond : (∃ q ∈ st.bonds, a1 = q.1 ∨ a1 = q.2) ∨
          (∃ q ∈ st.bonds, a2 = q.1 ∨ a2 = q.2) := by
        rcases hmem with hm | hm
        · exact Or.inl ((h.2.1 a1).1 hm)
        · exact Or.inr ((h.2.1 a2).1 hm)
      rw [if_pos hcond]
      have hstep : joinStep st (d, a1, a2) = st := by
        unfold joinStep
        rw [if_pos hmem]
      rw [hstep]
      exact ih st h
    · have hcond : ¬ ((∃ q ∈ st.bonds, a1 = q.1 ∨ a1 = q.2) ∨
          (∃ q ∈ st.bonds, a2 = q.1 ∨ a2 = q.2)) := by
        rintro (⟨q, hq, hqa⟩ | ⟨q, hq, hqa⟩)
        · exact hmem (Or.inl ((h.2.1 a1).2 ⟨q, hq, hqa⟩))
        · exact hmem (Or.inr ((h.2.1 a2).2 ⟨q, hq, hqa⟩))
      rw [if_neg hcond]
      have hbonds : (joinStep st (d, a1, a2)).bonds =
          st.bonds ++ [(a1, a2)] := by
        unfold joinStep
        rw [if_neg hmem]
      rw [ih _ (joinStep_inv (d, a1, a2) h), hbonds]

theorem foldl_positions_bonds (inp : JoinInput)
    (ps : List JoinPosition) (st : JoinState) (h : JoinInv st) :
    (ps.foldl
      (fun st pos =>
        ((positionDistances inp pos).mergeSort tripLE).foldl joinStep st)
      st).bonds =
      ps.foldl
        (fun acc pos =>
          specJoin ((positionDistances inp pos).mergeSort tripLE) acc)
        st.bonds := by
  induction ps generalizing st with
  | nil => rfl
  | cons pos rest ih =>
    simp only [List.foldl_cons]
    rw [ih _ (foldl_joinStep_inv _ h), foldl_joinStep_bonds _ _ h]

theorem keyLE_dist {a b : ℚ × ℕ × ℕ} (h : keyLE a b) : a.1 ≤ b.1 := by
  simpa [keyLE] using h

theorem keyLE_trans (a b c : ℚ × ℕ × ℕ) :
    keyLE a b → keyLE b c → keyLE a c := by
  simp only [keyLE, decide_eq_true_eq]
  exact le_trans

theorem keyLE_total (a b : ℚ × ℕ × ℕ) : keyLE a b || keyLE b a := by
  simp only [keyLE, Bool.or_eq_true, decide_eq_true_eq]
  exact le_total a.1 b.1

theorem tripLE_dist {a b : ℚ × ℕ × ℕ} (h : tripLE a b) : a.1 ≤ b.1 := by
  simp only [tripLE, decide_eq_true_eq] at h
  rcases h with h | ⟨h, _⟩
  · exact le_of_lt h
  · exact le_of_eq h

theorem tripLE_trans (a b c : ℚ × ℕ × ℕ) :
    tripLE a b → tripLE b c → tripLE a c := by
  simp only [tripLE, decide_eq_true_eq]
  rintro (h1 | ⟨e1, h1⟩) (h2 | ⟨e2, h2⟩)
  · exact Or.inl (lt_trans h1 h2)
  · exact Or.inl (e2 ▸ h1)
  · rw [e1]
    exact Or.inl h2
  · refine Or.inr ⟨e1.trans e2, ?_⟩
    rcases h1 with h1 | ⟨f1, h1⟩ <;> rcases h2 with h2 | ⟨f2, h2⟩
    · exact Or.inl (lt_trans h1 h2)
    · exact Or.inl (f2 ▸ h1)
    · rw [f1]
      exact Or.inl h2
    · exact Or.inr ⟨f1.trans f2, le_trans h1 h2⟩

theorem tripLE_total (a b : ℚ × ℕ × ℕ) : tripLE a b || tripLE b a := by
  simp only [tripLE, Bool.or_eq_true, decide_eq_true_eq]
  rcases lt_trichotomy a.1 b.1 with h | h | h
  · exact Or.inl (Or.inl h)
  · rcases lt_trichotomy a.2.1 b.2.1 with h' | h' | h'
    · exact Or.inl (Or.inr ⟨h, Or.inl h'⟩)
    · rcases le_total a.2.2 b.2.2 with h'' | h''
      · exact Or.inl (Or.inr ⟨h, Or.inr ⟨h', h''⟩⟩)
      · exact Or.inr (Or.inr ⟨h.symm, Or.inr ⟨h'.symm, h''⟩⟩)
    · exact Or.inr (Or.inr ⟨h.symm, Or.inl h'⟩)
  · exact Or.inr (Or.inl h)

/-- C2.  Greedy minimum-distance matching: the atom-to-position pairing
of `pair_bonders_with_positions` is what is obtained by listing every
(bonder atom, connected position) candidate with its distance, sorting
ascending by distance, and accepting each candidate in that order
exactly when neither its atom nor its position was accepted before; the
atom-to-atom pairing of `join_mols` follows the same
sort-ascending-then-greedily-consume rule over the per-position
candidate lists.  The sorted lists are permutations of the candidate
lists and are ascending in the distance component. -/
theorem greedy_minimum_distance_matching (inp : PBInput)
    (jinp : JoinInput) :
    (pairBondersWithPositions inp =
        specAccept ((pbCandidates inp).mergeSort keyLE) [] ∧
      ((pbCandidates inp).mergeSort keyLE).Perm (pbCandidates inp) ∧
      ((pbCandidates inp).mergeSort keyLE).Pairwise
        (fun a b => a.1 ≤ b.1)) ∧
    ((joinMols jinp).bonds =
        jinp.positions.foldl
          (fun acc pos =>
            specJoin ((positionDistances jinp pos).mergeSort tripLE) acc)
          [] ∧
      ∀ pos ∈ jinp.positions,
        ((positionDistances jinp pos).mergeSort tripLE).Perm
          (positionDistances jinp pos) ∧
        ((positionDistances jinp pos).mergeSort tripLE).Pairwise
          (fun a b => a.1 ≤ b.1)) := by
  refine ⟨⟨?_, List.mergeSort_perm _ _, ?_⟩, ⟨?_, ?_⟩⟩
  · rw [specAccept_eq_pairAux _ [] [] [] (by simp) (by simp)]
    rfl
  · exact (List.sorted_mergeSort keyLE_trans keyLE_total _).imp
      keyLE_dist
  · have h0 : JoinInv
        ({ bonds := [], bondsMade := 0, paired := [], warnings := [] } :
          JoinState) := by
      refine ⟨List.Pairwise.nil, ?_, rfl, rfl⟩
      intro x
      simp
    exact foldl_positions_bonds jinp jinp.positions _ h0
  · intro pos _
    exact ⟨List.mergeSort_perm _ _,
      (List.sorted_mergeSort tripLE_trans tripLE_total _).imp tripLE_dist⟩

/-- The bonds in the output of `join_mols` that lie across the edge
joining the position `pos` to the connected position with identity `v`:
bonds whose first atom is paired to `v` in `pos.atom_position_pairs`
and whose second atom is a bonder atom of `v`. -/
def crossBonds (jinp : JoinInput) (pos : JoinPosition) (v : ℕ) :
    List (ℕ × ℕ) :=
  (joinMols jinp).bonds.filter
    (fun b => decide ((b.1, v) ∈ pos.atomPositionPairs) &&
      decide (b.2 ∈ jinp.bonderIdsOf v))

/-- C3.  Bond count: `bonds_made` equals the number of atom pairs
consumed by the greedy atom-to-atom matcher, and the number of new
bonds formed across a single edge is at most the minimum of the
bonder-atom counts at its two endpoint positions (`pid` is the identity
of `pos`, whose `atom_position_pairs` draw from its own bonder ids). -/
theorem bond_count (jinp : JoinInput) (pos : JoinPosition) (v pid : ℕ)
    (h1 : ∀ ap ∈ pos.atomPositionPairs, ap.1 ∈ jinp.bonderIdsOf pid) :
    (joinMols jinp).bondsMade = (joinMols jinp).bonds.length ∧
    (crossBonds jinp pos v).length ≤
      min (jinp.bonderIdsOf pid).length (jinp.bonderIdsOf v).length := by
  have hpw : (crossBonds jinp pos v).Pairwise endsDisjoint :=
    (joinMols_inv jinp).1.sublist (List.filter_sublist _)
  have hmemb : ∀ b ∈ crossBonds jinp pos v,
      (b.1, v) ∈ pos.atomPositionPairs ∧ b.2 ∈ jinp.bonderIdsOf v := by
    intro b hb
    have h' := (List.mem_filter.1 hb).2
    simpa only [Bool.and_eq_true, decide_eq_true_eq] using h'
  refine ⟨(joinMols_inv jinp).2.2.1, le_min ?_ ?_⟩
  · have hnd : ((crossBonds jinp pos v).map Prod.fst).Nodup :=
      List.pairwise_map.2 (hpw.imp fun h => h.1)
    have hsub : (crossBonds jinp pos v).map Prod.fst ⊆
        jinp.bonderIdsOf pid := by
      intro x hx
      obtain ⟨b, hb, rfl⟩ := List.mem_map.1 hx
      exact h1 (b.1, v) (hmemb b hb).1
    rw [← List.length_map (crossBonds jinp pos v) Prod.fst]
    exact (List.subperm_of_subset hnd hsub).length_le
  · have hnd : ((crossBonds jinp pos v).map Prod.snd).Nodup :=
      List.pairwise_map.2 (hpw.imp fun h => h.2.2.2)
    have hsub : (crossBonds jinp pos v).map Prod.snd ⊆
        jinp.bonderIdsOf v := by
      intro x hx
      obtain ⟨b, hb, rfl⟩ := List.mem_map.1 hx
      exact (hmemb b hb).2
    rw [← List.length_map (crossBonds jinp pos v) Prod.snd]
    exact (List.subperm_of_subset hnd hsub).length_le

/-- A concrete position for exercising `join_mols`: two bonder atoms,
both paired to the connected position with identity `7`. -/
def c3Pos : JoinPosition := ⟨[(0, 7), (1, 7)]⟩

/-- A concrete `join_mols` input: one position holding bonder atoms
`0, 1`, its neighbour `7` holding bonder atoms `10, 11`, atoms placed
on the x axis. -/
def c3Inp : JoinInput :=
  ⟨[c3Pos],
    fun i => if i = 0 then [0, 1] else if i = 7 then [10, 11] else [],
    fun a => ((a : ℚ), 0, 0)⟩

/-- Witness for C3 at a concrete input. -/
theorem bond_count_witness :
    (∀ ap ∈ c3Pos.atomPositionPairs, ap.1 ∈ c3Inp.bonderIdsOf 0) ∧
    ((joinMols c3Inp).bondsMade = (joinMols c3Inp).bonds.length ∧
      (crossBonds c3Inp c3Pos 7).length ≤
        min (c3Inp.bonderIdsOf 0).length (c3Inp.bonderIdsOf 7).length) :=
  ⟨by decide, bond_count c3Inp c3Pos 7 0 (by decide)⟩

/-- Every bond recorded by the greedy consumption loop either was
already recorded or comes from one of the consumed candidates. -/
theorem foldl_joinStep_mem (l : List (ℚ × ℕ × ℕ)) (st : JoinState) :
    ∀ b ∈ (l.foldl joinStep st).bonds,
      b ∈ st.bonds ∨ ∃ c ∈ l, b = (c.2.1, c.2.2) := by
  induction l generalizing st with
  | nil => intro b hb; exact Or.inl hb
  | cons c rest ih =>
    intro b hb
    rw [List.foldl_cons] at hb
    rcases ih (joinStep st c) b hb with hmem | ⟨c', hc', rfl⟩
    · unfold joinStep at hmem
      split at hmem
      · exact Or.inl hmem
      · simp only [List.mem_append, List.mem_singleton] at hmem
        rcases hmem with hmem | rfl
        · exact Or.inl hmem
        · exact Or.inr ⟨c, List.mem_cons_self _ _, rfl⟩
    · exact Or.inr ⟨c', List.mem_cons_of_mem _ hc', rfl⟩

/-- C5 (amended).  Stoichiometry mismatch is tolerated silently: when a
position's bonder atoms (`pid` side, all paired to the neighbouring
position `v`) outnumber the bonder atoms of `v`, `join_mols` completes,
at least one excess atom of the larger side ends up in no bond, and no
warning is emitted (the loop body contains no reporting statement). -/
theorem stoichiometry_mismatch (jinp : JoinInput) (pos : JoinPosition)
    (v pid : ℕ)
    (hone : jinp.positions = [pos])
    (htgt : ∀ ap ∈ pos.atomPositionPairs, ap.2 = v)
    (h1 : ∀ ap ∈ pos.atomPositionPairs, ap.1 ∈ jinp.bonderIdsOf pid)
    (h2 : (jinp.bonderIdsOf pid).Nodup)
    (hdisj : ∀ a ∈ jinp.bonderIdsOf pid, a ∉ jinp.bonderIdsOf v)
    (hlt : (jinp.bonderIdsOf v).length <
      (jinp.bonderIdsOf pid).length) :
    (joinMols jinp).warnings = [] ∧
    ∃ a ∈ jinp.bonderIdsOf pid,
      ∀ b ∈ (joinMols jinp).bonds, a ≠ b.1 ∧ a ≠ b.2 := by
  have hpw := (joinMols_inv jinp).1
  refine ⟨(joinMols_inv jinp).2.2.2, ?_⟩
  have hjm : joinMols jinp =
      ((positionDistances jinp pos).mergeSort tripLE).foldl joinStep
        { bonds := [], bondsMade := 0, paired := [], warnings := [] } := by
    unfold joinMols
    rw [hone]
    rfl
  have hbonds : ∀ b ∈ (joinMols jinp).bonds,
      b.1 ∈ jinp.bonderIdsOf pid ∧ b.2 ∈ jinp.bonderIdsOf v := by
    intro b hb
    rw [hjm] at hb
    rcases foldl_joinStep_mem _ _ b hb with hmem | ⟨c, hc, rfl⟩
    · exact absurd hmem (List.not_mem_nil _)
    · rw [List.mem_mergeSort] at hc
      obtain ⟨ap, hap, hc⟩ := List.mem_flatMap.1 hc
      obtain ⟨a2, ha2, rfl⟩ := List.mem_map.1 hc
      refine ⟨h1 ap hap, ?_⟩
      rw [htgt ap hap] at ha2
      exact ha2
  have hlen : (joinMols jinp).bonds.length ≤
      (jinp.bonderIdsOf v).length := by
    have hnd : ((joinMols jinp).bonds.map Prod.snd).Nodup :=
      List.pairwise_map.2 (hpw.imp fun h => h.2.2.2)
    have hsub : (joinMols jinp).bonds.map Prod.snd ⊆
        jinp.bonderIdsOf v := by
      intro x hx
      obtain ⟨b, hb, rfl⟩ := List.mem_map.1 hx
      exact (hbonds b hb).2
    rw [← List.length_map (joinMols jinp).bonds Prod.snd]
    exact (List.subperm_of_subset hnd hsub).length_le
  by_contra hcon
  push_neg at hcon
  have hsub : jinp.bonderIdsOf pid ⊆ (joinMols jinp).bonds.map Prod.fst := by
    intro a ha
    obtain ⟨b, hb, hab⟩ := hcon a ha
    by_cases hfst : a = b.1
    · exact List.mem_map.2 ⟨b, hb, hfst.symm⟩
    · have hsnd : a = b.2 := hab hfst
      exact absurd (hsnd.symm ▸ (hbonds b hb).2) (hdisj a ha)
  have := (List.subperm_of_subset h2 hsub).length_le
  rw [List.length_map] at this
  omega

/-- A concrete position with two bonder atoms, both paired to the
neighbouring position `7`. -/
def c5Pos : JoinPosition := ⟨[(0, 7), (1, 7)]⟩

/-- A concrete `join_mols` input with mismatched stoichiometry: the
position holds bonder atoms `0, 1` but its neighbour `7` holds the
single bonder atom `10`. -/
def c5Inp : JoinInput :=
  ⟨[c5Pos],
    fun i => if i = 0 then [0, 1] else if i = 7 then [10] else [],
    fun a => ((if a = 1 then 5 else if a = 10 then 1 else 0 : ℚ), 0, 0)⟩

/-- Counterexample for C5 as stated: on an input whose two connected
positions hold unequal numbers of bonder atoms, `join_mols` forms one
bond, leaves the excess atom `0` in no bond, and reports nothing — no
warning is emitted, contradicting the claim that the condition is
reported as a warning. -/
theorem stoichiometry_mismatch_counterexample :
    (c5Inp.bonderIdsOf 7).length ≠ (c5Inp.bonderIdsOf 0).length ∧
    (joinMols c5Inp).bonds.length = 1 ∧
    (∀ b ∈ (joinMols c5Inp).bonds, 1 ≠ b.1 ∧ 1 ≠ b.2) ∧
    (joinMols c5Inp).warnings = [] := by
  have hcand : positionDistances c5Inp c5Pos = [(1, 0, 10), (16, 1, 10)] := by
    simp only [positionDistances, c5Pos, c5Inp, List.flatMap_cons,
      List.flatMap_nil, List.map_cons, List.map_nil, List.append_nil,
      dist2]
    norm_num
  have hsorted : (positionDistances c5Inp c5Pos).mergeSort tripLE
      = positionDistances c5Inp c5Pos := by
    rw [hcand]
    exact List.mergeSort_of_sorted
      (by norm_num [List.pairwise_cons, tripLE])
  have hjm : joinMols c5Inp =
      (positionDistances c5Inp c5Pos).foldl joinStep
        { bonds := [], bondsMade := 0, paired := [], warnings := [] } := by
    unfold joinMols
    rw [show c5Inp.positions = [c5Pos] from rfl, List.foldl_cons,
      List.foldl_nil, hsorted]
  rw [hjm, hcand]
  decide

/-- Witness for the amended C5 at a concrete input. -/
theorem stoichiometry_mismatch_witness :
    (c5Inp.positions = [c5Pos] ∧
      (∀ ap ∈ c5Pos.atomPositionPairs, ap.2 = 7) ∧
      (∀ ap ∈ c5Pos.atomPositionPairs, ap.1 ∈ c5Inp.bonderIdsOf 0) ∧
      (c5Inp.bonderIdsOf 0).Nodup ∧
      (∀ a ∈ c5Inp.bonderIdsOf 0, a ∉ c5Inp.bonderIdsOf 7) ∧
      (c5Inp.bonderIdsOf 7).length < (c5Inp.bonderIdsOf 0).length) ∧
    ((joinMols c5Inp).warnings = [] ∧
      ∃ a ∈ c5Inp.bonderIdsOf 0,
        ∀ b ∈ (joinMols c5Inp).bonds, a ≠ b.1 ∧ a ≠ b.2) :=
  ⟨⟨rfl, by decide, by decide, by decide, by decide, by decide⟩,
    stoichiometry_mismatch c5Inp c5Pos 7 0 rfl (by decide) (by decide)
      (by decide) (by decide) (by decide)⟩

/-! Real 3-vectors for the geometric claims. -/

/-- A 3D vector with real components. -/
abbrev Vec3 := ℝ × ℝ × ℝ

def vadd (a b : Vec3) : Vec3 := (a.1 + b.1, a.2.1 + b.2.1, a.2.2 + b.2.2)

def vsub (a b : Vec3) : Vec3 := (a.1 - b.1, a.2.1 - b.2.1, a.2.2 - b.2.2)

def vneg (a : Vec3) : Vec3 := (-a.1, -a.2.1, -a.2.2)

def vsmul (s : ℝ) (a : Vec3) : Vec3 := (s * a.1, s * a.2.1, s * a.2.2)

def vdot (a b : Vec3) : ℝ := a.1 * b.1 + a.2.1 * b.2.1 + a.2.2 * b.2.2

/-- `np.cross`. -/
def vcross (a b : Vec3) : Vec3 :=
  (a.2.1 * b.2.2 - a.2.2 * b.2.1,
   a.2.2 * b.1 - a.1 * b.2.2,
   a.1 * b.2.1 - a.2.1 * b.1)

/-- Euclidean norm. -/
noncomputable def vnorm (a : Vec3) : ℝ := Real.sqrt (vdot a a)

/-- `stk.utilities.normalize_vector`.  Modelled from the spec (the
`utilities` module is not among the supplied sources): returns
`v / ||v||`; for the zero vector real-number division by zero yields
the zero vector. -/
noncomputable def normalizeVec (v : Vec3) : Vec3 := vsmul (1 / vnorm v) v

/-- Clamp to the interval [-1, 1], as in the spec's
`acos(clamp(a·b / (|a||b|), -1, 1))`. -/
noncomputable def clamp (x : ℝ) : ℝ := min 1 (max (-1) x)

/-- `stk.utilities.vector_theta` (used by `edge_plane_normal`) and
`stk.utilities.vector_angle` (used by `get_bonder_plane_normal`).
Modelled from the spec (the `utilities` module is not among the
supplied sources): the angle between two vectors via
`acos(clamp(a·b / (|a||b|), -1, 1))`.  For a zero vector real-number
division by zero yields 0 and the angle is `arccos 0 = π/2`. -/
noncomputable def vectorTheta (a b : Vec3) : ℝ :=
  Real.arccos (clamp (vdot a b / (vnorm a * vnorm b)))

/-- `itertools.combinations(lst, 2)`, in itertools order. -/
def combinations2 : List Vec3 → List (Vec3 × Vec3)
  | [] => []
  | x :: xs => xs.map (fun y => (x, y)) ++ combinations2 xs

/-- `Vertex.edge_direction_vectors`: normalized scaled differences of
the coordinates of every pair of connected edges. -/
noncomputable def edgeDirectionVectors (connected : List Vec3)
    (scale : ℝ) : List Vec3 :=
  (combinations2 connected).map
    (fun pr => normalizeVec (vsmul scale (vsub pr.1 pr.2)))

/-- The sign flip at the end of `edge_plane_normal`: negate the normal
when its angle to the reference exceeds π/2. -/
noncomputable def flipToward (n ref : Vec3) : Vec3 :=
  if vectorTheta n ref > Real.pi / 2 then vneg n else n

/-- `Vertex.edge_plane_normal`: take the first two edge direction
vectors (`itertools.islice(..., 2)`; with fewer than two the tuple
unpacking raises, modelled as `none`), cross and normalize them, and
flip the result toward the reference `self.connected[0].coord * scale`. -/
noncomputable def edgePlaneNormal (connected : List Vec3) (scale : ℝ) :
    Option Vec3 :=
  match edgeDirectionVectors connected scale with
  | v1 :: v2 :: _ =>
    some (flipToward (normalizeVec (vcross v1 v2))
      (vsmul scale connected.headI))
  | _ => none

theorem vdot_vneg_left (a b : Vec3) : vdot (vneg a) b = -(vdot a b) := by
  simp only [vdot, vneg]
  ring

theorem vnorm_vneg (a : Vec3) : vnorm (vneg a) = vnorm a := by
  simp only [vnorm, vdot, vneg]
  ring_nf

theorem clamp_neg (x : ℝ) : clamp (-x) = -clamp x := by
  simp only [clamp, min_def, max_def]
  split_ifs <;> linarith

theorem clamp_mem (x : ℝ) : -1 ≤ clamp x ∧ clamp x ≤ 1 := by
  simp only [clamp, min_def, max_def]
  split_ifs <;> constructor <;> linarith

theorem vectorTheta_vneg (n r : Vec3) :
    vectorTheta (vneg n) r = Real.pi - vectorTheta n r := by
  simp only [vectorTheta, vdot_vneg_left, vnorm_vneg, neg_div,
    clamp_neg, Real.arccos_neg]

theorem vectorTheta_le_pi (n r : Vec3) : vectorTheta n r ≤ Real.pi :=
  Real.arccos_le_pi _

/-- After the sign flip, the angle to the reference never exceeds
π/2. -/
theorem flipToward_le (n ref : Vec3) :
    vectorTheta (flipToward n ref) ref ≤ Real.pi / 2 := by
  unfold flipToward
  split
  · next h =>
    rw [vectorTheta_vneg]
    linarith
  · next h =>
    linarith [not_lt.1 h]

/-- The molecular state of `BuildingBlock` used by
`get_bonder_plane_normal`: atom coordinates (position `i` of the list
is the coordinate of atom id `i`) and the bonder atom ids of each
functional group. -/
structure BBModel where
  atoms : List Vec3
  fgs : List (List ℕ)

def coordOf (m : BBModel) (i : ℕ) : Vec3 := m.atoms.getD i (0, 0, 0)

/-- `Molecule.get_centroid` over the given atom ids: the arithmetic
mean of their coordinates. -/
noncomputable def centroidOf (m : BBModel) (ids : List ℕ) : Vec3 :=
  vsmul (1 / (ids.length : ℝ))
    ((ids.map (coordOf m)).foldr vadd (0, 0, 0))

/-- `BuildingBlock.get_bonder_ids` restricted to the given functional
groups: the concatenation of each group's bonder ids. -/
def bonderIds (m : BBModel) (fgIds : List ℕ) : List ℕ :=
  fgIds.flatMap (fun i => m.fgs.getD i [])

/-- `Molecule.get_centroid` with no atom ids: the arithmetic mean of
all atom coordinates. -/
noncomputable def centroidAll (m : BBModel) : Vec3 :=
  vsmul (1 / (m.atoms.length : ℝ)) (m.atoms.foldr vadd (0, 0, 0))

/-- `get_centroid_centroid_direction_vector`: the molecule centroid
minus the bonder centroid. -/
noncomputable def ccVector (m : BBModel) (fgIds : List ℕ) : Vec3 :=
  vsub (centroidAll m) (centroidOf m (bonderIds m fgIds))

/-- `np.allclose(cc_vector, [0, 0, 0], atol=1e-5)` (the default
relative tolerance contributes nothing against a zero target). -/
def allcloseZero (v : Vec3) : Prop :=
  |v.1| ≤ 1 / 100000 ∧ |v.2.1| ≤ 1 / 100000 ∧ |v.2.2| ≤ 1 / 100000

open Classical in
/-- `BuildingBlock.get_bonder_plane_normal`.  Raises a `ValueError`
(the spec's `InsufficientPointsError`) when fewer than 3 functional
group ids are given; otherwise flips the best-fit plane normal toward
the centroid-to-centroid reference unless that reference is allclose
to zero.  The singular-value decomposition step is modelled by the
parameter `svdNormal`: `numpy.linalg.svd` returns one of the two unit
normals of the best-fit plane of the centered bonder centroids, with
an unspecified sign, so every theorem below holds for every choice of
that parameter. -/
noncomputable def getBonderPlaneNormal (svdNormal : Vec3) (m : BBModel)
    (fgIds : List ℕ) : Except String Vec3 :=
  if fgIds.length < 3 then
    Except.error
      "At least 3 functional groups are necessary to create a plane."
  else
    Except.ok
      (if ¬ allcloseZero (ccVector m fgIds) ∧
          vectorTheta svdNormal (ccVector m fgIds) > Real.pi / 2 then
        vneg svdNormal
      else svdNormal)

/-- C4 (amended).  Plane-normal sign convention: whenever
`edge_plane_normal` returns a normal (the vertex has enough connected
edges for two direction vectors), its angle to the reference — the
scaled position of the first connected edge — is at most π/2; whenever
`get_bonder_plane_normal` returns a normal and the
centroid-to-bonder-centroid reference is not allclose to zero (atol
1e-5), the angle of the returned normal to that reference is at most
π/2. -/
theorem plane_normal_sign (connected : List Vec3) (scale : ℝ)
    (n : Vec3) (h : edgePlaneNormal connected scale = some n)
    (svdN : Vec3) (m : BBModel) (fgIds : List ℕ) (nb : Vec3)
    (hcc : ¬ allcloseZero (ccVector m fgIds))
    (hb : getBonderPlaneNormal svdN m fgIds = Except.ok nb) :
    vectorTheta n (vsmul scale connected.headI) ≤ Real.pi / 2 ∧
    vectorTheta nb (ccVector m fgIds) ≤ Real.pi / 2 := by
  constructor
  · unfold edgePlaneNormal at h
    split at h
    · next v1 v2 _ _ =>
      rw [Option.some.injEq] at h
      rw [← h]
      exact flipToward_le _ _
    · exact absurd h (Option.noConfusion)
  · unfold getBonderPlaneNormal at hb
    split at hb
    · exact absurd hb (Except.noConfusion)
    · rw [Except.ok.injEq] at hb
      split at hb
      · next hcond =>
        rw [← hb, vectorTheta_vneg]
        linarith [hcond.2]
      · next hcond =>
        rw [← hb]
        rcases not_and_or.1 hcond with hc | hc
        · exact absurd hcc (not_not.2 (not_not.1 hc))
        · linarith [not_lt.1 hc]

/-- A concrete building block whose molecule centroid lies within the
allclose tolerance of the bonder centroid: three single-atom functional
groups in the yz plane, and one extra atom shifting the molecule
centroid to `(1e-6, 0, 0)`. -/
noncomputable def c4BB : BBModel :=
  ⟨[(0, 1, 0), (0, 0, 1), (0, -1, -1), (1/250000, 0, 0)],
    [[0], [1], [2]]⟩

/-- Counterexample for C4 as stated: `c4BB` has three functional
groups, and its centered bonder centroids lie in the yz plane, so
`(-1, 0, 0)` is a legitimate output of the SVD step (it is a unit
vector orthogonal to every centered centroid, and `numpy.linalg.svd`
fixes no sign).  Because the centroid-to-centroid reference
`(1e-6, 0, 0)` is allclose to zero (atol 1e-5), the sign flip is
skipped and `get_bonder_plane_normal` returns a normal whose angle to
the reference is π, exceeding π/2. -/
theorem plane_normal_sign_counterexample :
    getBonderPlaneNormal ((-1 : ℝ), 0, 0) c4BB [0, 1, 2] =
      Except.ok ((-1 : ℝ), 0, 0) ∧
    Real.pi / 2 <
      vectorTheta ((-1 : ℝ), 0, 0) (ccVector c4BB [0, 1, 2]) ∧
    vdot ((-1 : ℝ), 0, 0) ((-1 : ℝ), 0, 0) = 1 ∧
    (∀ i ∈ ([0, 1, 2] : List ℕ),
      vdot ((-1 : ℝ), 0, 0)
        (vsub (centroidOf c4BB (c4BB.fgs.getD i []))
          (centroidOf c4BB (bonderIds c4BB [0, 1, 2]))) = 0) := by
  have hbond : bonderIds c4BB [0, 1, 2] = [0, 1, 2] := rfl
  have hbc : centroidOf c4BB [0, 1, 2] = (0, 0, 0) := by
    simp [centroidOf, coordOf, c4BB, vsmul, vadd]
  have hcc : ccVector c4BB [0, 1, 2] = (1/1000000, 0, 0) := by
    have h2 : centroidAll c4BB = (1/1000000, 0, 0) := by
      simp [centroidAll, c4BB, vsmul, vadd]
      norm_num
    rw [ccVector, hbond, hbc, h2]
    simp [vsub]
  have hac : allcloseZero (ccVector c4BB [0, 1, 2]) := by
    rw [hcc]
    unfold allcloseZero
    norm_num [abs_le]
  have htheta : vectorTheta ((-1 : ℝ), 0, 0)
      (ccVector c4BB [0, 1, 2]) = Real.pi := by
    rw [hcc]
    unfold vectorTheta
    have h1 : vdot ((-1 : ℝ), 0, 0) ((1/1000000 : ℝ), 0, 0) =
        -(1/1000000) := by
      norm_num [vdot]
    have h2 : vnorm ((-1 : ℝ), 0, 0) = 1 := by
      rw [vnorm,
        show vdot ((-1 : ℝ), 0, 0) ((-1 : ℝ), 0, 0) = 1 by
          norm_num [vdot],
        Real.sqrt_one]
    have h3 : vnorm ((1/1000000 : ℝ), 0, 0) = 1/1000000 := by
      rw [vnorm,
        show vdot ((1/1000000 : ℝ), 0, 0) ((1/1000000 : ℝ), 0, 0) =
            (1/1000000 : ℝ)^2 by norm_num [vdot],
        Real.sqrt_sq (by norm_num)]
    rw [h1, h2, h3,
      show (-(1/1000000) / (1 * (1/1000000)) : ℝ) = -1 by norm_num,
      show clamp (-1) = -1 by rw [clamp]; norm_num,
      Real.arccos_neg_one]
  refine ⟨?_, ?_, by norm_num [vdot], ?_⟩
  · unfold getBonderPlaneNormal
    rw [if_neg (by decide), if_neg (fun hy => hy.1 hac)]
  · rw [htheta]
    linarith [Real.pi_pos]
  · intro i hi
    rw [hbond, hbc]
    fin_cases hi <;>
      simp [centroidOf, coordOf, c4BB, vsmul, vadd, vsub, vdot]

/-- Coordinates of the edges connected to a concrete three-edge
vertex. -/
noncomputable def c4Connected : List Vec3 :=
  [(1, 0, 0), (0, 0, 0), (1, 1, 0)]

/-- A concrete building block whose centroid-to-centroid reference is
`(1, 0, 0)`, far outside the allclose tolerance. -/
noncomputable def c4BBw : BBModel :=
  ⟨[(0, 1, 0), (0, 0, 1), (0, -1, -1), (4, 0, 0)], [[0], [1], [2]]⟩

/-- Witness for the amended C4 at concrete inputs. -/
theorem plane_normal_sign_witness :
    (edgePlaneNormal c4Connected 1 =
        some ((edgePlaneNormal c4Connected 1).getD (0, 0, 0)) ∧
      ¬ allcloseZero (ccVector c4BBw [0, 1, 2]) ∧
      getBonderPlaneNormal ((1 : ℝ), 0, 0) c4BBw [0, 1, 2] =
        Except.ok ((1 : ℝ), 0, 0)) ∧
    (vectorTheta ((edgePlaneNormal c4Connected 1).getD (0, 0, 0))
        (vsmul 1 c4Connected.headI) ≤ Real.pi / 2 ∧
      vectorTheta ((1 : ℝ), 0, 0) (ccVector c4BBw [0, 1, 2]) ≤
        Real.pi / 2) := by
  have hcc : ccVector c4BBw [0, 1, 2] = (1, 0, 0) := by
    have hbc : centroidOf c4BBw (bonderIds c4BBw [0, 1, 2]) =
        (0, 0, 0) := by
      simp [centroidOf, coordOf, c4BBw, vsmul, vadd, bonderIds]
    have h2 : centroidAll c4BBw = (1, 0, 0) := by
      simp [centroidAll, c4BBw, vsmul, vadd]
    rw [ccVector, hbc, h2]
    simp [vsub]
  have hnac : ¬ allcloseZero (ccVector c4BBw [0, 1, 2]) := by
    rw [hcc]
    intro hy
    have h := hy.1
    norm_num at h
  have htheta : vectorTheta ((1 : ℝ), 0, 0)
      (ccVector c4BBw [0, 1, 2]) = 0 := by
    rw [hcc]
    unfold vectorTheta
    have h2 : vnorm ((1 : ℝ), 0, 0) = 1 := by
      rw [vnorm,
        show vdot ((1 : ℝ), 0, 0) ((1 : ℝ), 0, 0) = 1 by
          norm_num [vdot],
        Real.sqrt_one]
    rw [show vdot ((1 : ℝ), 0, 0) ((1 : ℝ), 0, 0) = 1 by
        norm_num [vdot],
      h2, show ((1 : ℝ) / (1 * 1)) = 1 by norm_num,
      show clamp 1 = 1 by rw [clamp]; norm_num, Real.arccos_one]
  have hb : getBonderPlaneNormal ((1 : ℝ), 0, 0) c4BBw [0, 1, 2] =
      Except.ok ((1 : ℝ), 0, 0) := by
    have hcond : ¬ (¬ allcloseZero (ccVector c4BBw [0, 1, 2]) ∧
        vectorTheta ((1 : ℝ), 0, 0) (ccVector c4BBw [0, 1, 2]) >
          Real.pi / 2) := by
      rintro ⟨-, hgt⟩
      rw [htheta] at hgt
      linarith [Real.pi_pos]
    unfold getBonderPlaneNormal
    rw [if_neg (by decide), if_neg hcond]
  have hedge : edgePlaneNormal c4Connected 1 =
      some ((edgePlaneNormal c4Connected 1).getD (0, 0, 0)) := rfl
  exact ⟨⟨hedge, hnac, hb⟩,
    plane_normal_sign c4Connected 1 _ hedge _ c4BBw [0, 1, 2] _ hnac hb⟩

/-- C6.  `get_bonder_plane_normal` raises (a `ValueError`, the kind
named `InsufficientPointsError` by the spec's error taxonomy) exactly
when given fewer than 3 functional-group ids, and with 3 or more it
returns a normal without raising.  The hypothesis `hv` restricts the
statement to ids of functional groups the building block actually has,
as the claim presupposes. -/
theorem insufficient_points (svdN : Vec3) (m : BBModel)
    (fgIds : List ℕ) (hv : ∀ i ∈ fgIds, i < m.fgs.length) :
    ((∃ msg, getBonderPlaneNormal svdN m fgIds = Except.error msg) ↔
      fgIds.length < 3) ∧
    (3 ≤ fgIds.length →
      ∃ nrm, getBonderPlaneNormal svdN m fgIds = Except.ok nrm) := by
  unfold getBonderPlaneNormal
  by_cases h : fgIds.length < 3
  · rw [if_pos h]
    exact ⟨⟨fun _ => h, fun _ => ⟨_, rfl⟩⟩, fun h3 => absurd h (by omega)⟩
  · rw [if_neg h]
    refine ⟨⟨?_, fun hlt => absurd hlt h⟩, fun _ => ⟨_, rfl⟩⟩
    rintro ⟨msg, hmsg⟩
    exact Except.noConfusion hmsg

/-- Witness for C6 at a concrete input. -/
theorem insufficient_points_witness :
    (∀ i ∈ ([0, 1, 2] : List ℕ), i < c4BBw.fgs.length) ∧
    (((∃ msg, getBonderPlaneNormal ((1 : ℝ), 0, 0) c4BBw [0, 1, 2] =
          Except.error msg) ↔ ([0, 1, 2] : List ℕ).length < 3) ∧
      (3 ≤ ([0, 1, 2] : List ℕ).length →
        ∃ nrm, getBonderPlaneNormal ((1 : ℝ), 0, 0) c4BBw [0, 1, 2] =
          Except.ok nrm)) :=
  ⟨by decide, insufficient_points ((1 : ℝ), 0, 0) c4BBw [0, 1, 2]
    (by decide)⟩

/-- Modelled from the spec: the rotation-matrix computation used by
`Molecule.apply_rotation_about_axis` (declared in
`src/src/stk/molecular/molecules/molecule/molecule.py` but implemented
outside the supplied sources).  The Rodrigues rotation of `v` by angle
`θ` about the unit axis `k`. -/
noncomputable def rodrigues (θ : ℝ) (k v : Vec3) : Vec3 :=
  vadd
    (vadd (vsmul (Real.cos θ) v)
      (vsmul (Real.sin θ) (vcross k v)))
    (vsmul ((1 - Real.cos θ) * vdot k v) k)

/-- Modelled from the spec: `apply_rotation_about_axis(angle, axis,
origin)` shifts the point to the origin, applies the rotation matrix
about the axis, and shifts back. -/
noncomputable def rotateAboutAxis (angle : ℝ) (axis origin p : Vec3) :
    Vec3 :=
  vadd origin (rodrigues angle axis (vsub p origin))

/-- Euclidean distance between two points. -/
noncomputable def vdist (p q : Vec3) : ℝ := vnorm (vsub p q)

theorem rodrigues_norm2 (θ : ℝ) (k v : Vec3) (hk : vdot k k = 1) :
    vdot (rodrigues θ k v) (rodrigues θ k v) = vdot v v := by
  obtain ⟨k1, k2, k3⟩ := k
  obtain ⟨v1, v2, v3⟩ := v
  have hsc : Real.sin θ ^ 2 + Real.cos θ ^ 2 = 1 :=
    Real.sin_sq_add_cos_sq θ
  simp only [rodrigues, vadd, vsmul, vcross, vdot] at hk ⊢
  set c := Real.cos θ
  set s := Real.sin θ
  linear_combination
    ((1 - c ^ 2) * (v1 * v1 + v2 * v2 + v3 * v3) +
      (1 - c) ^ 2 * (k1 * v1 + k2 * v2 + k3 * v3) ^ 2) * hk +
    ((k1 * k1 + k2 * k2 + k3 * k3) * (v1 * v1 + v2 * v2 + v3 * v3) -
      (k1 * v1 + k2 * v2 + k3 * v3) ^ 2) * hsc

theorem rotate_vsub (θ : ℝ) (k o p q : Vec3) :
    vsub (rotateAboutAxis θ k o p) (rotateAboutAxis θ k o q) =
      rodrigues θ k (vsub p q) := by
  obtain ⟨k1, k2, k3⟩ := k
  obtain ⟨o1, o2, o3⟩ := o
  obtain ⟨p1, p2, p3⟩ := p
  obtain ⟨q1, q2, q3⟩ := q
  simp only [rotateAboutAxis, rodrigues, vadd, vsub, vsmul, vcross,
    vdot, Prod.mk.injEq]
  refine ⟨?_, ?_, ?_⟩ <;> ring

/-- C8.  Rotation is an isometry: for every angle, unit axis, origin
and pair of points, `apply_rotation_about_axis` leaves their Euclidean
distance exactly unchanged, and in particular unchanged within the
1e-10 tolerance of the spec. -/
theorem rotation_preserves_distances (θ : ℝ) (axis origin p q : Vec3)
    (hax : vdot axis axis = 1) :
    vdist (rotateAboutAxis θ axis origin p)
        (rotateAboutAxis θ axis origin q) = vdist p q ∧
    |vdist (rotateAboutAxis θ axis origin p)
        (rotateAboutAxis θ axis origin q) - vdist p q| ≤
      1 / 10 ^ 10 := by
  have heq : vdist (rotateAboutAxis θ axis origin p)
      (rotateAboutAxis θ axis origin q) = vdist p q := by
    unfold vdist vnorm
    rw [rotate_vsub, rodrigues_norm2 θ axis (vsub p q) hax]
  refine ⟨heq, ?_⟩
  rw [heq, sub_self, abs_zero]
  positivity

/-- Witness for C8 at a concrete input. -/
theorem rotation_preserves_distances_witness :
    vdot ((0 : ℝ), 0, 1) ((0 : ℝ), 0, 1) = 1 ∧
    (vdist (rotateAboutAxis 1 ((0 : ℝ), 0, 1) (0, 0, 0) (1, 2, 3))
        (rotateAboutAxis 1 ((0 : ℝ), 0, 1) (0, 0, 0) (4, 5, 6)) =
      vdist ((1 : ℝ), 2, 3) ((4 : ℝ), 5, 6) ∧
    |vdist (rotateAboutAxis 1 ((0 : ℝ), 0, 1) (0, 0, 0) (1, 2, 3))
        (rotateAboutAxis 1 ((0 : ℝ), 0, 1) (0, 0, 0) (4, 5, 6)) -
      vdist ((1 : ℝ), 2, 3) ((4 : ℝ), 5, 6)| ≤ 1 / 10 ^ 10) :=
  ⟨by norm_num [vdot],
    rotation_preserves_distances 1 ((0 : ℝ), 0, 1) (0, 0, 0) (1, 2, 3)
      (4, 5, 6) (by norm_num [vdot])⟩

/-- Modelled from the spec: a vertex of the topology-graph model
(§4.2; the vertex implementation is not among the supplied sources,
only its tests are).  It carries a position, the incident edge ids in
construction order, a periodic-cell coordinate, the custom-position
flag, and the caller-added attributes (values modelled as
integers). -/
structure SpecVertex where
  position : ℚ × ℚ × ℚ
  edgeIds : List ℕ
  cell : ℤ × ℤ × ℤ
  customPosition : Bool
  attrs : List (String × ℤ)

/-- Modelled from the spec: `apply_scale(factor)` multiplies the
position by the factor and preserves every other attribute, including
the custom-position flag. -/
def applyScale (factor : ℚ) (v : SpecVertex) : SpecVertex :=
  { v with position := scaleVec factor v.position }

/-- C9.  Scaling acts multiplicatively on the position: after
`apply_scale(s)` the position is `s` times the old position and every
other attribute (edge ids, cell, custom-position flag, caller-added
attributes) is unchanged; `apply_scale(1.0)` is the identity (exact
equality). -/
theorem apply_scale_spec (s : ℚ) (v : SpecVertex) :
    (applyScale s v).position = scaleVec s v.position ∧
    (applyScale s v).edgeIds = v.edgeIds ∧
    (applyScale s v).cell = v.cell ∧
    (applyScale s v).customPosition = v.customPosition ∧
    (applyScale s v).attrs = v.attrs ∧
    applyScale 1 v = v := by
  refine ⟨rfl, rfl, rfl, rfl, rfl, ?_⟩
  obtain ⟨⟨x, y, z⟩, e, c, f, a⟩ := v
  simp [applyScale, scaleVec]

/-- Modelled from the spec: an atom value object (the `Atom` class is
not among the supplied sources; §6 treats atoms as value objects with
a `clone`).  `aid` is the atom id, `element` the atomic number,
`charge` the formal charge. -/
structure AtomVal where
  aid : ℕ
  element : ℤ
  charge : ℤ

/-- A heap of atom objects: Python object references are modelled as
indices and `next` is the next fresh reference. -/
structure AtomHeap where
  next : ℕ
  val : ℕ → AtomVal

/-- Allocate a fresh atom object holding the value `a`. -/
def allocAtom (h : AtomHeap) (a : AtomVal) : ℕ × AtomHeap :=
  (h.next, ⟨h.next + 1, fun r => if r = h.next then a else h.val r⟩)

/-- Modelled from the spec: `Atom.clone` returns a fresh atom object
holding the same value. -/
def atomClone (h : AtomHeap) (r : ℕ) : ℕ × AtomHeap :=
  allocAtom h (h.val r)

/-- Mutate the atom object at reference `r`. -/
def writeAtom (h : AtomHeap) (r : ℕ) (a : AtomVal) : AtomHeap :=
  ⟨h.next, fun s => if s = r then a else h.val s⟩

/-- A caller-added attribute value: either an immutable Python value
(an int, a str, ...; modelled by an integer) or a reference to a
mutable object (a list, a dict, a numpy array, ...) living in the cell
heap below.  `setattr(clone, attr, val)` copies this value verbatim,
so for a reference the clone and the original share the referenced
object. -/
inductive AttrVal where
  | int : ℤ → AttrVal
  | ref : ℕ → AttrVal
deriving DecidableEq

/-- The heap of mutable objects referenced by attribute values (kept
apart from the atom heap; a cell's integer content stands for the
observable state of the referenced object, e.g. a list's contents). -/
def CellHeap : Type := ℕ → ℤ

/-- Mutate the object at reference `r`, e.g. appending to the
referenced list. -/
def writeCell (cells : CellHeap) (r : ℕ) (z : ℤ) : CellHeap :=
  fun s => if s = r then z else cells s

/-- The value observed when an attribute is read: an immutable value
is itself; a reference is dereferenced in the cell heap. -/
def attrDeref (cells : CellHeap) : AttrVal → ℤ
  | AttrVal.int z => z
  | AttrVal.ref r => cells r

/-- A `Bond` object: references to the two atom objects it holds
(`_atom1`, `_atom2`), the bond order (`_order`), the periodicity
triple (`_periodicity`), and the caller-added attributes as name/value
pairs (the four fields just listed are the underscore-prefixed entries
of the Python object's `vars`, kept separately here, so `attrs` holds
exactly the remaining entries). -/
structure BondObj where
  atom1 : ℕ
  atom2 : ℕ
  order : ℚ
  periodicity : ℤ × ℤ × ℤ
  attrs : List (String × AttrVal)

/-- The observable value of the caller-added attribute named `nm` of a
bond: look the name up and dereference its value. -/
def getAttr (cells : CellHeap) (b : BondObj) (nm : String) :
    Option ℤ :=
  (b.attrs.find? (fun p => p.1 == nm)).map
    (fun p => attrDeref cells p.2)

/-- The privacy test `attr.startswith('_')` applied by `Bond.clone`
to attribute names: a Python identifier starts with an underscore
exactly when its first character is an underscore. -/
def isPrivateName (nm : String) : Bool := nm.data.head? == some '_'

/-- `Bond.clone` with the default `atom_map=None` (so
`atom_map.get(...)` always falls back to `self._atomX.clone()`): copy
every attribute whose name does not start with an underscore, then set
`_atom1` and `_atom2` to clones of the held atoms and copy `_order`
and `_periodicity`. -/
def bondClone (h : AtomHeap) (b : BondObj) : BondObj × AtomHeap :=
  let r1h := atomClone h b.atom1
  let r2h := atomClone r1h.2 b.atom2
  (⟨r1h.1, r2h.1, b.order, b.periodicity,
    b.attrs.filter (fun p => ! isPrivateName p.1)⟩, r2h.2)

/-- Modelled from the spec and `test_clone`: vertex `clone()` copies
position, edge ids, cell and flag, keeps caller-added public
attributes and drops private ones. -/
def cloneVertex (v : SpecVertex) : SpecVertex :=
  { position := v.position
    edgeIds := v.edgeIds
    cell := v.cell
    customPosition := v.customPosition
    attrs := v.attrs.filter (fun p => ! isPrivateName p.1) }

theorem bondClone_atom1 (h : AtomHeap) (b : BondObj) :
    (bondClone h b).1.atom1 = h.next := rfl

theorem bondClone_atom2 (h : AtomHeap) (b : BondObj) :
    (bondClone h b).1.atom2 = h.next + 1 := rfl

theorem bondClone_val_old (h : AtomHeap) (b : BondObj) (r : ℕ)
    (hr : r < h.next) : (bondClone h b).2.val r = h.val r := by
  simp only [bondClone, atomClone, allocAtom]
  rw [if_neg (by omega), if_neg (by omega)]

theorem bondClone_val_atom1 (h : AtomHeap) (b : BondObj) :
    (bondClone h b).2.val (bondClone h b).1.atom1 = h.val b.atom1 := by
  simp only [bondClone, atomClone, allocAtom]
  rw [if_neg (by omega)]
  simp

theorem bondClone_val_atom2 (h : AtomHeap) (b : BondObj)
    (h2 : b.atom2 < h.next) :
    (bondClone h b).2.val (bondClone h b).1.atom2 = h.val b.atom2 := by
  simp only [bondClone, atomClone, allocAtom]
  simp only [if_true, eq_self_iff_true]
  rw [if_neg (by omega)]

theorem writeAtom_other (h : AtomHeap) (r s : ℕ) (a : AtomVal)
    (hrs : s ≠ r) : (writeAtom h r a).val s = h.val s := by
  simp only [writeAtom]
  rw [if_neg hrs]

theorem filter_public_mem {α : Type} {attrs : List (String × α)}
    {nm : String} {x : α} (hmem : (nm, x) ∈ attrs)
    (hpub : ¬ isPrivateName nm) :
    (nm, x) ∈ attrs.filter (fun p => ! isPrivateName p.1) := by
  rw [List.mem_filter]
  exact ⟨hmem, by simp [hpub]⟩

theorem filter_private_not_mem {α : Type}
    {attrs : List (String × α)} {nm : String} {x : α}
    (hpriv : isPrivateName nm) :
    (nm, x) ∉ attrs.filter (fun p => ! isPrivateName p.1) := by
  rw [List.mem_filter]
  rintro ⟨-, hkeep⟩
  simp [hpriv] at hkeep

/-- C7 (amended).  Selective-copy clone contract.  For `Bond.clone`
(with valid atom references): the clone's order and periodicity equal
the original's and its atoms hold equal values; caller-added public
attributes survive — by reference: the clone holds exactly the same
attribute value, so a reference-valued (mutable) public attribute is
shared between original and clone — and private attributes are
dropped; the clone's atom references are fresh, so mutating the atoms
held by the clone leaves the atoms held by the original unchanged and
vice versa (the no-shared-mutable-state part of the claim holds for
the bond's own atom state, and fails for mutable public attribute
values, see the counterexample).  For the vertex `clone()` (modelled
from the spec and its test): position, edge ids and cell are copied,
public attributes survive, private ones are dropped. -/
theorem clone_contract (h : AtomHeap) (b : BondObj)
    (ha1 : b.atom1 < h.next) (ha2 : b.atom2 < h.next)
    (v : SpecVertex) :
    ((bondClone h b).1.order = b.order ∧
      (bondClone h b).1.periodicity = b.periodicity ∧
      (bondClone h b).2.val (bondClone h b).1.atom1 = h.val b.atom1 ∧
      (bondClone h b).2.val (bondClone h b).1.atom2 = h.val b.atom2 ∧
      (bondClone h b).2.val b.atom1 = h.val b.atom1 ∧
      (bondClone h b).2.val b.atom2 = h.val b.atom2 ∧
      (∀ nm x, (nm, x) ∈ b.attrs → ¬ isPrivateName nm →
        (nm, x) ∈ (bondClone h b).1.attrs) ∧
      (∀ nm r, (nm, AttrVal.ref r) ∈ b.attrs → ¬ isPrivateName nm →
        (nm, AttrVal.ref r) ∈ (bondClone h b).1.attrs ∧
        ∀ (cells : CellHeap) (z : ℤ),
          attrDeref (writeCell cells r z) (AttrVal.ref r) = z) ∧
      (∀ nm x, isPrivateName nm →
        (nm, x) ∉ (bondClone h b).1.attrs) ∧
      ((bondClone h b).1.atom1 ≠ b.atom1 ∧
        (bondClone h b).1.atom1 ≠ b.atom2 ∧
        (bondClone h b).1.atom2 ≠ b.atom1 ∧
        (bondClone h b).1.atom2 ≠ b.atom2) ∧
      (∀ a : AtomVal,
        (writeAtom (bondClone h b).2 (bondClone h b).1.atom1 a).val
            b.atom1 = h.val b.atom1 ∧
        (writeAtom (bondClone h b).2 (bondClone h b).1.atom2 a).val
            b.atom2 = h.val b.atom2 ∧
        (writeAtom (bondClone h b).2 b.atom1 a).val
            (bondClone h b).1.atom1 = h.val b.atom1 ∧
        (writeAtom (bondClone h b).2 b.atom2 a).val
            (bondClone h b).1.atom2 = h.val b.atom2)) ∧
    ((cloneVertex v).position = v.position ∧
      (cloneVertex v).edgeIds = v.edgeIds ∧
      (cloneVertex v).cell = v.cell ∧
      (cloneVertex v).customPosition = v.customPosition ∧
      (∀ nm x, (nm, x) ∈ v.attrs → ¬ isPrivateName nm →
        (nm, x) ∈ (cloneVertex v).attrs) ∧
      (∀ nm x, isPrivateName nm → (nm, x) ∉ (cloneVertex v).attrs)) := by
  have e1 : (bondClone h b).1.atom1 = h.next := rfl
  have e2 : (bondClone h b).1.atom2 = h.next + 1 := rfl
  refine ⟨⟨rfl, rfl, bondClone_val_atom1 h b, bondClone_val_atom2 h b ha2,
    bondClone_val_old h b _ ha1, bondClone_val_old h b _ ha2,
    ?_, ?_, ?_,
    ⟨by rw [e1]; omega, by rw [e1]; omega,
      by rw [e2]; omega, by rw [e2]; omega⟩,
    ?_⟩,
    rfl, rfl, rfl, rfl, ?_, ?_⟩
  · intro nm x hmem hpub
    exact filter_public_mem hmem hpub
  · intro nm r hmem hpub
    refine ⟨filter_public_mem hmem hpub, ?_⟩
    intro cells z
    show (if r = r then z else cells r) = z
    rw [if_pos rfl]
  · intro nm x hpriv
    exact filter_private_not_mem hpriv
  · intro a
    refine ⟨?_, ?_, ?_, ?_⟩
    · rw [writeAtom_other _ _ _ _ (by rw [e1]; omega)]
      exact bondClone_val_old h b _ ha1
    · rw [writeAtom_other _ _ _ _ (by rw [e2]; omega)]
      exact bondClone_val_old h b _ ha2
    · rw [writeAtom_other _ _ _ _ (by rw [e1]; omega)]
      exact bondClone_val_atom1 h b
    · rw [writeAtom_other _ _ _ _ (by rw [e2]; omega)]
      exact bondClone_val_atom2 h b ha2
  · intro nm x hmem hpub
    exact filter_public_mem hmem hpub
  · intro nm x hpriv
    exact filter_private_not_mem hpriv

/-- A concrete atom heap with two allocated atoms. -/
def c7Heap : AtomHeap := ⟨2, fun r => ⟨r, 6, 0⟩⟩

/-- A concrete bond holding atoms `0` and `1`, with a public
caller-added attribute `"tag"` referencing the mutable object at cell
`0`, a public immutable attribute `"note"`, and a private attribute
`"_cache"`. -/
def c7Bond : BondObj :=
  ⟨0, 1, 1, (0, 0, 0),
    [("tag", AttrVal.ref 0), ("note", AttrVal.int 5),
      ("_cache", AttrVal.int 9)]⟩

/-- A concrete vertex with one public and one private caller-added
attribute. -/
def c7Vertex : SpecVertex :=
  ⟨(1, 2, 3), [4, 5], (0, 0, 0), true, [("note", 3), ("_priv", 8)]⟩

/-- Witness for C7 at a concrete input. -/
theorem clone_contract_witness :
    (c7Bond.atom1 < c7Heap.next ∧ c7Bond.atom2 < c7Heap.next) ∧
    (((bondClone c7Heap c7Bond).1.order = c7Bond.order ∧
      (bondClone c7Heap c7Bond).1.periodicity = c7Bond.periodicity ∧
      (bondClone c7Heap c7Bond).2.val
          (bondClone c7Heap c7Bond).1.atom1 = c7Heap.val c7Bond.atom1 ∧
      (bondClone c7Heap c7Bond).2.val
          (bondClone c7Heap c7Bond).1.atom2 = c7Heap.val c7Bond.atom2 ∧
      (bondClone c7Heap c7Bond).2.val c7Bond.atom1 =
          c7Heap.val c7Bond.atom1 ∧
      (bondClone c7Heap c7Bond).2.val c7Bond.atom2 =
          c7Heap.val c7Bond.atom2 ∧
      (∀ nm x, (nm, x) ∈ c7Bond.attrs → ¬ isPrivateName nm →
        (nm, x) ∈ (bondClone c7Heap c7Bond).1.attrs) ∧
      (∀ nm r, (nm, AttrVal.ref r) ∈ c7Bond.attrs →
        ¬ isPrivateName nm →
        (nm, AttrVal.ref r) ∈ (bondClone c7Heap c7Bond).1.attrs ∧
        ∀ (cells : CellHeap) (z : ℤ),
          attrDeref (writeCell cells r z) (AttrVal.ref r) = z) ∧
      (∀ nm x, isPrivateName nm →
        (nm, x) ∉ (bondClone c7Heap c7Bond).1.attrs) ∧
      (((bondClone c7Heap c7Bond).1.atom1 ≠ c7Bond.atom1 ∧
        (bondClone c7Heap c7Bond).1.atom1 ≠ c7Bond.atom2 ∧
        (bondClone c7Heap c7Bond).1.atom2 ≠ c7Bond.atom1 ∧
        (bondClone c7Heap c7Bond).1.atom2 ≠ c7Bond.atom2)) ∧
      (∀ a : AtomVal,
        (writeAtom (bondClone c7Heap c7Bond).2
            (bondClone c7Heap c7Bond).1.atom1 a).val c7Bond.atom1 =
          c7Heap.val c7Bond.atom1 ∧
        (writeAtom (bondClone c7Heap c7Bond).2
            (bondClone c7Heap c7Bond).1.atom2 a).val c7Bond.atom2 =
          c7Heap.val c7Bond.atom2 ∧
        (writeAtom (bondClone c7Heap c7Bond).2 c7Bond.atom1 a).val
            (bondClone c7Heap c7Bond).1.atom1 =
          c7Heap.val c7Bond.atom1 ∧
        (writeAtom (bondClone c7Heap c7Bond).2 c7Bond.atom2 a).val
            (bondClone c7Heap c7Bond).1.atom2 =
          c7Heap.val c7Bond.atom2)) ∧
    ((cloneVertex c7Vertex).position = c7Vertex.position ∧
      (cloneVertex c7Vertex).edgeIds = c7Vertex.edgeIds ∧
      (cloneVertex c7Vertex).cell = c7Vertex.cell ∧
      (cloneVertex c7Vertex).customPosition = c7Vertex.customPosition ∧
      (∀ nm x, (nm, x) ∈ c7Vertex.attrs → ¬ isPrivateName nm →
        (nm, x) ∈ (cloneVertex c7Vertex).attrs) ∧
      (∀ nm x, isPrivateName nm →
        (nm, x) ∉ (cloneVertex c7Vertex).attrs))) :=
  ⟨⟨by decide, by decide⟩,
    clone_contract c7Heap c7Bond (by decide) (by decide) c7Vertex⟩

/-- Counterexample for C7 as stated: `Bond.clone` copies caller-added
public attributes by reference (`setattr(clone, attr, val)` stores the
same object), so the clone's public attribute `"tag"` holds the same
mutable object — reference `0` — as the original's.  Starting from a
cell heap where that object's observable state is `5`, mutating the
object through the clone's attribute (writing `9` into cell `0`)
changes the value observed through the original's attribute from `5`
to `9`: mutating the clone's state does change the original's
observable state, contradicting the claim's no-shared-mutable-state
clause. -/
theorem clone_contract_counterexample :
    ¬ (isPrivateName "tag") = true ∧
    ("tag", AttrVal.ref 0) ∈ c7Bond.attrs ∧
    ("tag", AttrVal.ref 0) ∈ (bondClone c7Heap c7Bond).1.attrs ∧
    getAttr (fun _ => 5) c7Bond "tag" = some 5 ∧
    getAttr (fun _ => 5) (bondClone c7Heap c7Bond).1 "tag" = some 5 ∧
    getAttr (writeCell (fun _ => 5) 0 9)
      (bondClone c7Heap c7Bond).1 "tag" = some 9 ∧
    getAttr (writeCell (fun _ => 5) 0 9) c7Bond "tag" = some 9 := by
  decide

/-- The mutable state of the cage graph objects (`Vertex` and `Edge`
instances of `src/stk/molecular/topologies/cage/base.py`): `next` is
the next fresh object id; `coordOf`, `connectedOf` and `customOf` give
each object's `coord`, `connected` list (as object ids) and
`custom_position` flag. -/
structure GraphState where
  next : ℕ
  coordOf : ℕ → ℚ × ℚ × ℚ
  connectedOf : ℕ → List ℕ
  customOf : ℕ → Bool

/-- `stk.utilities.centroid`: the arithmetic mean of finitely many
points.  Modelled from the spec (the `utilities` module is not among
the supplied sources): `centroid(points)` is the arithmetic mean of a
non-empty sequence of points. -/
def centroidQ (ps : List (ℚ × ℚ × ℚ)) : ℚ × ℚ × ℚ :=
  scaleVec (1 / (ps.length : ℚ))
    (ps.foldr (fun a b => (a.1 + b.1, a.2.1 + b.2.1, a.2.2 + b.2.2))
      (0, 0, 0))

/-- `for v in vertices: v.connected.append(obj)`: append the new
object's id to the `connected` list of every listed vertex, once per
occurrence. -/
def appendConnections (newId : ℕ) (vs : List ℕ)
    (conn : ℕ → List ℕ) : ℕ → List ℕ :=
  vs.foldl (fun f v => fun i => if i = v then f i ++ [newId] else f i)
    conn

/-- `Vertex.vertex_init(*vertices)`: allocate a new vertex whose
`coord` is the centroid of the given vertices' coordinates and whose
`custom_position` is `False`, set its `connected` list to exactly the
given vertices, and append the new object to each given vertex's
`connected` list.  `Edge.__init__(v1, v2)` performs exactly this state
change on the two-element list `[v1, v2]` (its `custom_position`
parameter also defaults to `False`), so both constructors are modelled
by this one function. -/
def vertexInit (st : GraphState) (vs : List ℕ) : ℕ × GraphState :=
  (st.next,
    { next := st.next + 1
      coordOf := fun i =>
        if i = st.next then centroidQ (vs.map st.coordOf)
        else st.coordOf i
      connectedOf := appendConnections st.next vs
        (fun i => if i = st.next then vs else st.connectedOf i)
      customOf := fun i =>
        if i = st.next then false else st.customOf i })

/-- `Edge.__init__(v1, v2)`. -/
def edgeInit (st : GraphState) (v1 v2 : ℕ) : ℕ × GraphState :=
  vertexInit st [v1, v2]

theorem appendConnections_not_mem (n : ℕ) (vs : List ℕ)
    (conn : ℕ → List ℕ) (i : ℕ) (hi : i ∉ vs) :
    appendConnections n vs conn i = conn i := by
  induction vs generalizing conn with
  | nil => rfl
  | cons v rest ih =>
    have hiv : i ≠ v := fun he => hi (he ▸ List.mem_cons_self _ _)
    have hirest : i ∉ rest := fun hm => hi (List.mem_cons_of_mem _ hm)
    unfold appendConnections
    rw [List.foldl_cons]
    have := ih (fun j => if j = v then conn j ++ [n] else conn j) hirest
    unfold appendConnections at this
    rw [this]
    show (if i = v then conn i ++ [n] else conn i) = conn i
    rw [if_neg hiv]

theorem appendConnections_superset (n : ℕ) (vs : List ℕ)
    (conn : ℕ → List ℕ) (i x : ℕ) (hx : x ∈ conn i) :
    x ∈ appendConnections n vs conn i := by
  induction vs generalizing conn with
  | nil => exact hx
  | cons v rest ih =>
    unfold appendConnections
    rw [List.foldl_cons]
    apply ih
    by_cases hic : i = v
    · rw [if_pos hic]
      exact List.mem_append_left _ hx
    · rw [if_neg hic]
      exact hx

theorem appendConnections_mem (n : ℕ) (vs : List ℕ)
    (conn : ℕ → List ℕ) (v : ℕ) (hv : v ∈ vs) :
    n ∈ appendConnections n vs conn v := by
  induction vs generalizing conn with
  | nil => exact absurd hv (List.not_mem_nil _)
  | cons w rest ih =>
    unfold appendConnections
    rw [List.foldl_cons]
    rcases List.mem_cons.1 hv with rfl | hv'
    · apply appendConnections_superset
      rw [if_pos rfl]
      exact List.mem_append_right _ (List.mem_singleton_self _)
    · exact ih _ hv'

/-- C10.  Edge construction establishes position and mutual
connectivity: `vertex_init` over a tuple of vertices (and likewise
`Edge(v1, v2)`) sets the new object's coordinate to the centroid of
the supplied vertices' coordinates, sets its `connected` list to
exactly those vertices (the custom-position flag becomes false, the
position being derived), and appends the new object to each supplied
vertex's `connected` list, so that afterwards, for the new object and
each supplied vertex, membership in each other's `connected` lists is
mutual. -/
theorem edge_construction (st : GraphState) (vs : List ℕ)
    (v1 v2 : ℕ) (hvs : st.next ∉ vs) (hv1 : v1 ≠ st.next)
    (hv2 : v2 ≠ st.next) :
    ((vertexInit st vs).2.coordOf (vertexInit st vs).1 =
        centroidQ (vs.map st.coordOf) ∧
      (vertexInit st vs).2.connectedOf (vertexInit st vs).1 = vs ∧
      (vertexInit st vs).2.customOf (vertexInit st vs).1 = false ∧
      (∀ v ∈ vs,
        (vertexInit st vs).1 ∈ (vertexInit st vs).2.connectedOf v ∧
        v ∈ (vertexInit st vs).2.connectedOf (vertexInit st vs).1 ∧
        ((vertexInit st vs).1 ∈ (vertexInit st vs).2.connectedOf v ↔
          v ∈ (vertexInit st vs).2.connectedOf
            (vertexInit st vs).1))) ∧
    ((edgeInit st v1 v2).2.coordOf (edgeInit st v1 v2).1 =
        centroidQ [st.coordOf v1, st.coordOf v2] ∧
      (edgeInit st v1 v2).2.connectedOf (edgeInit st v1 v2).1 =
        [v1, v2] ∧
      (edgeInit st v1 v2).1 ∈ (edgeInit st v1 v2).2.connectedOf v1 ∧
      (edgeInit st v1 v2).1 ∈ (edgeInit st v1 v2).2.connectedOf v2) := by
  have hconn : ∀ (ws : List ℕ), st.next ∉ ws →
      (vertexInit st ws).2.connectedOf (vertexInit st ws).1 = ws := by
    intro ws hws
    show appendConnections st.next ws _ st.next = ws
    rw [appendConnections_not_mem _ _ _ _ hws, if_pos rfl]
  have hcoord : ∀ (ws : List ℕ),
      (vertexInit st ws).2.coordOf (vertexInit st ws).1 =
        centroidQ (ws.map st.coordOf) := by
    intro ws
    show (if st.next = st.next then _ else _) = _
    rw [if_pos rfl]
  have hmemb : ∀ (ws : List ℕ), ∀ v ∈ ws,
      (vertexInit st ws).1 ∈ (vertexInit st ws).2.connectedOf v := by
    intro ws v hv
    exact appendConnections_mem st.next ws _ v hv
  have hedgevs : st.next ∉ [v1, v2] := by
    intro hm
    rcases List.mem_cons.1 hm with he | hm'
    · exact hv1 he.symm
    · rw [List.mem_singleton] at hm'
      exact hv2 hm'.symm
  refine ⟨⟨hcoord vs, hconn vs hvs, ?_, ?_⟩, ?_, ?_, ?_, ?_⟩
  · show (if st.next = st.next then false else _) = false
    rw [if_pos rfl]
  · intro v hv
    have h1 := hmemb vs v hv
    have h2 : v ∈ (vertexInit st vs).2.connectedOf
        (vertexInit st vs).1 := by
      rw [hconn vs hvs]
      exact hv
    exact ⟨h1, h2, iff_of_true h1 h2⟩
  · exact hcoord [v1, v2]
  · exact hconn [v1, v2] hedgevs
  · exact hmemb [v1, v2] v1 (List.mem_cons_self _ _)
  · exact hmemb [v1, v2] v2
      (List.mem_cons_of_mem _ (List.mem_singleton_self _))

/-- A concrete graph state with two allocated vertices on the x
axis. -/
def c10State : GraphState :=
  ⟨2, fun i => ((i : ℚ), 0, 0), fun _ => [], fun _ => true⟩

/-- Witness for C10 at a concrete input. -/
theorem edge_construction_witness :
    (2 ∉ ([0, 1] : List ℕ) ∧ 0 ≠ 2 ∧ 1 ≠ 2) ∧
    (((vertexInit c10State [0, 1]).2.coordOf
          (vertexInit c10State [0, 1]).1 =
        centroidQ (([0, 1] : List ℕ).map c10State.coordOf) ∧
      (vertexInit c10State [0, 1]).2.connectedOf
          (vertexInit c10State [0, 1]).1 = [0, 1] ∧
      (vertexInit c10State [0, 1]).2.customOf
          (vertexInit c10State [0, 1]).1 = false ∧
      (∀ v ∈ ([0, 1] : List ℕ),
        (vertexInit c10State [0, 1]).1 ∈
          (vertexInit c10State [0, 1]).2.connectedOf v ∧
        v ∈ (vertexInit c10State [0, 1]).2.connectedOf
          (vertexInit c10State [0, 1]).1 ∧
        ((vertexInit c10State [0, 1]).1 ∈
            (vertexInit c10State [0, 1]).2.connectedOf v ↔
          v ∈ (vertexInit c10State [0, 1]).2.connectedOf
            (vertexInit c10State [0, 1]).1))) ∧
    ((edgeInit c10State 0 1).2.coordOf (edgeInit c10State 0 1).1 =
        centroidQ [c10State.coordOf 0, c10State.coordOf 1] ∧
      (edgeInit c10State 0 1).2.connectedOf
          (edgeInit c10State 0 1).1 = [0, 1] ∧
      (edgeInit c10State 0 1).1 ∈
        (edgeInit c10State 0 1).2.connectedOf 0 ∧
      (edgeInit c10State 0 1).1 ∈
        (edgeInit c10State 0 1).2.connectedOf 1)) :=
  ⟨⟨by decide, by decide, by decide⟩,
    edge_construction c10State [0, 1] 0 1 (by decide) (by decide)
      (by decide)⟩

end Stk
